import Mathlib

/-!
Shallow embedding of `pkg/gui/boxlayout/boxlayout.go`.

Modelling decisions:
* Go `int` is modelled as unbounded `Int` (two's-complement wraparound is not
  modelled; none of the properties below concerns wraparound).
* Go `map[string]Dimensions` is modelled as an association list in which the
  *last* entry for a key is the current one, so Go's `result[k] = v`
  overwrite corresponds to appending on the right; `dmLookup` realizes the
  Go map lookup on this representation.
* The Go expression `int(math.Min(float64(a), float64(b)))` is modelled by
  `goFloat64Min`, which rounds both operands to IEEE-754 binary64
  (round-to-nearest, ties-to-even; exact on integers of magnitude up to
  `2^53`), takes the smaller value, and converts back (exact, since the
  result is an integral float well inside the `int64` range for all inputs
  considered here).
* `nil` Go function fields are `none`; a non-`nil` field is `some f`.
-/

structure Dimensions where
  X0 : Int
  X1 : Int
  Y0 : Int
  Y1 : Int
deriving DecidableEq, Repr

/-- `ROW = iota` (0). -/
def ROW : Int := 0

/-- `COLUMN` (1). -/
def COLUMN : Int := 1

inductive Box : Type where
  | mk (Direction : Int)
       (ConditionalDirection : Option (Int → Int → Int))
       (Children : List Box)
       (ConditionalChildren : Option (Int → Int → List Box))
       (ViewName : String)
       (Size : Int)
       (Weight : Int) : Box

def Box.Direction : Box → Int
  | .mk d _ _ _ _ _ _ => d

def Box.ConditionalDirection : Box → Option (Int → Int → Int)
  | .mk _ cd _ _ _ _ _ => cd

def Box.Children : Box → List Box
  | .mk _ _ ch _ _ _ _ => ch

def Box.ConditionalChildren : Box → Option (Int → Int → List Box)
  | .mk _ _ _ cch _ _ _ => cch

def Box.ViewName : Box → String
  | .mk _ _ _ _ vn _ _ => vn

def Box.Size : Box → Int
  | .mk _ _ _ _ _ sz _ => sz

def Box.Weight : Box → Int
  | .mk _ _ _ _ _ _ wt => wt

/-- `func (b *Box) isStatic() bool { return b.Size > 0 }` -/
def Box.isStatic (b : Box) : Bool := b.Size > 0

/-- `func (b *Box) getDirection(width int, height int) int` -/
def Box.getDirection (b : Box) (width height : Int) : Int :=
  match b.ConditionalDirection with
  | some f => f width height
  | none => b.Direction

/-- `func (b *Box) getChildren(width int, height int) []*Box` -/
def Box.getChildren (b : Box) (width height : Int) : List Box :=
  match b.ConditionalChildren with
  | some f => f width height
  | none => b.Children

/-- `⌊log2 n⌋` via explicit fuel (kernel-computable; `log2Fuel n n` agrees
with `Nat.log2 n`, see `log2Fuel_eq_log2`). -/
def log2Fuel : Nat → Nat → Nat
  | 0, _ => 0
  | fuel + 1, n => if n ≤ 1 then 0 else log2Fuel fuel (n / 2) + 1

/-- Round-to-nearest, ties-to-even, of a natural number to 53 significant
bits: the value of Go's `float64(n)` for `0 ≤ n` (far below the binary64
overflow threshold, which no `int64` reaches).  Integers up to `2^53` are
exactly representable; above that the trailing `e = ⌊log2 n⌋ - 52` bits are
rounded away. -/
def rnd53 (n : Nat) : Nat :=
  if n ≤ 2 ^ 53 then n
  else
    let e := log2Fuel n n - 52
    let q := n / 2 ^ e
    let r := n % 2 ^ e
    let half := 2 ^ (e - 1)
    if r < half then q * 2 ^ e
    else if half < r then (q + 1) * 2 ^ e
    else if q % 2 = 0 then q * 2 ^ e else (q + 1) * 2 ^ e

/-- Go's `float64(n)` for an arbitrary integer (rounding is symmetric). -/
def rnd53Int (n : Int) : Int :=
  if n < 0 then -(rnd53 n.natAbs : Nat) else (rnd53 n.toNat : Nat)

/-- Model of `int(math.Min(float64(a), float64(b)))`: both operands are
converted to binary64 (`rnd53Int`), `math.Min` returns the smaller float,
and the conversion back to `int` is exact because the value is an integral
float. -/
def goFloat64Min (a b : Int) : Int :=
  if rnd53Int a ≤ rnd53Int b then rnd53Int a else rnd53Int b

/-- The Go `map[string]Dimensions` result type, as an association list in
which the rightmost entry for a key wins. -/
abbrev DMap := List (String × Dimensions)

/-- Go map lookup on the association-list representation: the last entry
recorded for a key is the one the Go map holds. -/
def dmLookup : DMap → String → Option Dimensions
  | [], _ => none
  | (k, v) :: rest, key =>
    match dmLookup rest key with
    | some r => some r
    | none => if k = key then some v else none

/-- `func mergeDimensionMaps(a, b map[string]Dimensions) map[string]Dimensions`:
the result holds every key of `a` and `b`, entries of `b` overwriting those
of `a`; in the rightmost-wins representation this is concatenation. -/
def mergeDimensionMaps (a b : DMap) : DMap := a ++ b

/-- `reservedSize`: the first pass adds `child.Size` for *every* child. -/
def reservedSizeOf (cs : List Box) : Int := (cs.map Box.Size).sum

/-- `totalWeight`: the first pass adds `child.Weight` for *every* child. -/
def totalWeightOf (cs : List Box) : Int := (cs.map Box.Weight).sum

/-- `availableSize`: `width` when the direction is COLUMN, else `height`. -/
def availableSizeOf (direction width height : Int) : Int :=
  if direction = COLUMN then width else height

/-- `remainingSize := availableSize - reservedSize`, clamped at 0. -/
def remainingSizeOf (availableSize : Int) (cs : List Box) : Int :=
  let r := availableSize - reservedSizeOf cs
  if r < 0 then 0 else r

/-- `unitSize = remainingSize / totalWeight` when `totalWeight > 0`, else 0
(Go division truncates toward zero, hence `Int.tdiv`). -/
def unitSizeOf (availableSize : Int) (cs : List Box) : Int :=
  if totalWeightOf cs > 0 then
    (remainingSizeOf availableSize cs).tdiv (totalWeightOf cs)
  else 0

/-- `extraSize = remainingSize % totalWeight` when `totalWeight > 0`, else 0
(Go remainder follows truncation, hence `Int.tmod`). -/
def extraSizeOf (availableSize : Int) (cs : List Box) : Int :=
  if totalWeightOf cs > 0 then
    (remainingSizeOf availableSize cs).tmod (totalWeightOf cs)
  else 0

/-- The `boxSize` computed for one child in the second pass: `child.Size`
for a static child, otherwise
`unitSize*child.Weight + int(math.Min(float64(extraSize), float64(child.Weight)))`. -/
def childBoxSize (unitSize extraSize : Int) (c : Box) : Int :=
  if c.isStatic then c.Size
  else unitSize * c.Weight + goFloat64Min extraSize c.Weight

/-- The `extraSize` pool after one child: a weighted child subtracts what it
drew (`extraSize -= boxExtraSize`); a static child leaves the pool alone. -/
def nextExtra (extraSize : Int) (c : Box) : Int :=
  if c.isStatic then extraSize
  else extraSize - goFloat64Min extraSize c.Weight

/-- The extents the second pass computes for a children list, in order,
starting from the given `extraSize` pool. -/
def boxSizesGo (unitSize : Int) : List Box → Int → List Int
  | [], _ => []
  | c :: cs, extraSize =>
    childBoxSize unitSize extraSize c :: boxSizesGo unitSize cs (nextExtra extraSize c)

/-- The immediate-child relation on boxes: `c` is one of the boxes that
`getChildren` can return for `b` (from the fixed `Children` list or from the
`ConditionalChildren` function at some width/height).  This is the relation
the recursion of `ArrangeViews` descends along. -/
inductive Box.IsChild : Box → Box → Prop where
  | fixed {c : Box} {dir : Int} {cdir : Option (Int → Int → Int)} {ch : List Box}
      {cch : Option (Int → Int → List Box)} {vn : String} {sz wt : Int} :
      c ∈ ch → Box.IsChild c (Box.mk dir cdir ch cch vn sz wt)
  | cond {c : Box} {dir : Int} {cdir : Option (Int → Int → Int)} {ch : List Box}
      {f : Int → Int → List Box} {vn : String} {sz wt : Int} {w h : Int} :
      c ∈ f w h → Box.IsChild c (Box.mk dir cdir ch (some f) vn sz wt)

/-- Every box is accessible along `IsChild`: box values are well-founded
trees, so the recursion of `ArrangeViews` terminates. -/
def Box.accIsChild : ∀ b : Box, Acc Box.IsChild b := by
  intro b
  refine @Box.rec (fun b => Acc Box.IsChild b)
    (fun cs => ∀ c ∈ cs, Acc Box.IsChild c)
    (fun o => ∀ f, o = some f → ∀ w h c, c ∈ f w h → Acc Box.IsChild c)
    ?_ ?_ ?_ ?_ ?_ b
  · intro dir cdir ch cch vn sz wt ih2 ih3
    refine Acc.intro _ (fun c hc => ?_)
    cases hc with
    | fixed hmem => exact ih2 _ hmem
    | cond hmem => exact ih3 _ rfl _ _ _ hmem
  · intro c hc
    exact absurd hc (List.not_mem_nil c)
  · intro hd tl ih1 ih2 c hc
    rcases List.mem_cons.mp hc with h | h
    · exact h ▸ ih1
    · exact ih2 _ h
  · intro f hf
    exact absurd hf (by simp)
  · intro f ih g hg w h c hc
    cases hg
    exact ih w h c hc

instance : WellFoundedRelation Box := ⟨Box.IsChild, ⟨Box.accIsChild⟩⟩

/-- Whatever `getChildren` returns consists of `IsChild`-children. -/
def Box.getChildren_isChild {b : Box} {w h : Int} {c : Box}
    (hc : c ∈ b.getChildren w h) : Box.IsChild c b := by
  cases b with
  | mk dir cdir ch cch vn sz wt =>
    cases cch with
    | none =>
      exact Box.IsChild.fixed
        (by simpa [Box.getChildren, Box.ConditionalChildren, Box.Children] using hc)
    | some f =>
      have hm : c ∈ f w h := by
        simpa [Box.getChildren, Box.ConditionalChildren] using hc
      exact Box.IsChild.cond hm

mutual

/-- `func ArrangeViews(root *Box, x0, y0, width, height int) map[string]Dimensions` -/
def ArrangeViews (root : Box) (x0 y0 width height : Int) : DMap :=
  let children := root.getChildren width height
  if children.length = 0 then
    if root.ViewName ≠ "" then
      [(root.ViewName, { X0 := x0, Y0 := y0, X1 := x0 + width - 1, Y1 := y0 + height - 1 })]
    else []
  else
    let direction := root.getDirection width height
    let availableSize := availableSizeOf direction width height
    let unitSize := unitSizeOf availableSize children
    let extraSize := extraSizeOf availableSize children
    arrangeChildren root direction x0 y0 width height unitSize children
      (fun c hc => Box.getChildren_isChild hc) [] 0 extraSize
termination_by (root, (root.getChildren width height).length + 2)
decreasing_by
  exact Prod.Lex.right _ (Nat.lt_succ_self _)

/-- The second-pass loop of `ArrangeViews`, carrying the accumulated
`result` map, the running `offset` and the remaining `extraSize` pool.  The
proof argument `hcs` records that every box in the list is a child of
`root`; it only serves the termination argument. -/
def arrangeChildren (root : Box) (direction x0 y0 width height unitSize : Int)
    (cs : List Box) (hcs : ∀ c ∈ cs, Box.IsChild c root)
    (result : DMap) (offset extraSize : Int) : DMap :=
  match cs, hcs with
  | [], _ => result
  | c :: rest, hcs =>
    let boxSize := childBoxSize unitSize extraSize c
    let resultForChild :=
      if direction = COLUMN then
        ArrangeViews c (x0 + offset) y0 boxSize height
      else
        ArrangeViews c x0 (y0 + offset) width boxSize
    arrangeChildren root direction x0 y0 width height unitSize rest
      (fun d hd => hcs d (List.mem_cons_of_mem c hd))
      (mergeDimensionMaps result resultForChild) (offset + boxSize)
      (nextExtra extraSize c)
termination_by (root, cs.length + 1)
decreasing_by
  all_goals first
    | exact Prod.Lex.right _ (Nat.lt_succ_self _)
    | exact Prod.Lex.left _ _ (hcs c (List.mem_cons_self c rest))

end

/-- One step of the second-pass loop, parameterized by the function used for
the recursive call (`f` will be the fuel-bounded `ArrangeViews`); returns
`none` as soon as a recursive call runs out of fuel. -/
def arrangeChildrenWith (f : Box → Int → Int → Int → Int → Option DMap)
    (direction x0 y0 width height unitSize : Int) :
    List Box → DMap → Int → Int → Option DMap
  | [], result, _, _ => some result
  | c :: rest, result, offset, extraSize =>
    let boxSize := childBoxSize unitSize extraSize c
    let resultForChild :=
      if direction = COLUMN then
        f c (x0 + offset) y0 boxSize height
      else
        f c x0 (y0 + offset) width boxSize
    match resultForChild with
    | none => none
    | some r =>
      arrangeChildrenWith f direction x0 y0 width height unitSize rest
        (mergeDimensionMaps result r) (offset + boxSize) (nextExtra extraSize c)

/-- Fuel-bounded `ArrangeViews`: structurally recursive on the fuel, hence
computable by the kernel; `none` means the fuel did not cover the recursion
depth of this call. -/
def arrangeViewsFuel : Nat → Box → Int → Int → Int → Int → Option DMap
  | 0, _, _, _, _, _ => none
  | Nat.succ n, root, x0, y0, width, height =>
    let children := root.getChildren width height
    if children.length = 0 then
      if root.ViewName ≠ "" then
        some [(root.ViewName,
          { X0 := x0, Y0 := y0, X1 := x0 + width - 1, Y1 := y0 + height - 1 })]
      else some []
    else
      let direction := root.getDirection width height
      let availableSize := availableSizeOf direction width height
      let unitSize := unitSizeOf availableSize children
      let extraSize := extraSizeOf availableSize children
      arrangeChildrenWith (fun c a b w h => arrangeViewsFuel n c a b w h)
        direction x0 y0 width height unitSize children [] 0 extraSize

/-- Loop companion of `leafMapsFuel`: concatenates the per-child leaf-map
lists without merging them. -/
def leafMapsLoop (f : Box → Int → Int → Int → Int → Option (List DMap))
    (direction x0 y0 width height unitSize : Int) :
    List Box → Int → Int → Option (List DMap)
  | [], _, _ => some []
  | c :: rest, offset, extraSize =>
    let boxSize := childBoxSize unitSize extraSize c
    let listForChild :=
      if direction = COLUMN then
        f c (x0 + offset) y0 boxSize height
      else
        f c x0 (y0 + offset) width boxSize
    match listForChild with
    | none => none
    | some l =>
      match leafMapsLoop f direction x0 y0 width height unitSize rest
          (offset + boxSize) (nextExtra extraSize c) with
      | none => none
      | some ls => some (l ++ ls)

/-- Fuel-bounded collector of the leaf mappings of a layout call, in
traversal order, with no intermediate merging: the "one final union of all
leaf mappings" reading of the algorithm flattens its output. -/
def leafMapsFuel : Nat → Box → Int → Int → Int → Int → Option (List DMap)
  | 0, _, _, _, _, _ => none
  | Nat.succ n, root, x0, y0, width, height =>
    let children := root.getChildren width height
    if children.length = 0 then
      if root.ViewName ≠ "" then
        some [[(root.ViewName,
          { X0 := x0, Y0 := y0, X1 := x0 + width - 1, Y1 := y0 + height - 1 })]]
      else some [[]]
    else
      let direction := root.getDirection width height
      let availableSize := availableSizeOf direction width height
      let unitSize := unitSizeOf availableSize children
      let extraSize := extraSizeOf availableSize children
      leafMapsLoop (fun c a b w h => leafMapsFuel n c a b w h)
        direction x0 y0 width height unitSize children 0 extraSize

/-- The frame (child, x0, y0, width, height) each recursive call of the
second pass receives, in order: the origin advances by the accumulated
extents along the partitioned axis, and the computed extent replaces the
partitioned dimension. -/
def childFrames (direction x0 y0 width height unitSize : Int) :
    List Box → Int → Int → List (Box × Int × Int × Int × Int)
  | [], _, _ => []
  | c :: rest, offset, extraSize =>
    let boxSize := childBoxSize unitSize extraSize c
    (if direction = COLUMN then (c, x0 + offset, y0, boxSize, height)
     else (c, x0, y0 + offset, width, boxSize))
      :: childFrames direction x0 y0 width height unitSize rest
          (offset + boxSize) (nextExtra extraSize c)

/-- The documented sizing convention (spec §3/§9): the Size field is
non-negative, the Weight field is non-negative, and no box carries a
positive Size together with a positive Weight. -/
def SizingConvention (cs : List Box) : Prop :=
  ∀ c ∈ cs, 0 ≤ c.Size ∧ 0 ≤ c.Weight ∧ (0 < c.Size → c.Weight = 0)

instance (cs : List Box) : Decidable (SizingConvention cs) := by
  unfold SizingConvention
  infer_instance

/-- Sum of the Size fields of the static children only (the spec's reading
of `reservedSize`). -/
def staticTotal (cs : List Box) : Int :=
  ((cs.filter fun c => c.isStatic).map Box.Size).sum

/-- Sum of the Weight fields of the non-static children only (the spec's
reading of `totalWeight`). -/
def weightedTotal (cs : List Box) : Int :=
  ((cs.filter fun c => !c.isStatic).map Box.Weight).sum

/-- The extents the second pass computes for the weighted (non-static)
children only, in order. -/
def weightedSizesGo (unitSize : Int) : List Box → Int → List Int
  | [], _ => []
  | c :: cs, extraSize =>
    if c.isStatic then weightedSizesGo unitSize cs (nextExtra extraSize c)
    else childBoxSize unitSize extraSize c :: weightedSizesGo unitSize cs (nextExtra extraSize c)

/-- A leaf box (no children, no callbacks) hosting view `v`. -/
def leafBox (v : String) (sz wt : Int) : Box := Box.mk 0 none [] none v sz wt

/-- A child list mixing a static Size with a positive Weight on the same box
(violating the documented convention). -/
def mixCexChildren : List Box := [leafBox ("a") 5 1, leafBox ("b") 0 1]

/-- A child list containing a negative Weight. -/
def negWeightCexChildren : List Box :=
  [leafBox ("a") 0 1, leafBox ("b") 0 (-5), leafBox ("c") 0 1, leafBox ("d") 0 10]

/-- An oversized static child next to a negative-Weight sibling. -/
def overSizeCexChildren : List Box := [leafBox ("a") 50 0, leafBox ("b") 0 (-1)]

/-- A single weighted child whose Weight exceeds `2^53`. -/
def hugeWeightChildren : List Box := [leafBox ("v") 0 (2 ^ 53 + 2)]

/-- A child list of weight 0 in total. -/
def zeroWeightChildren : List Box := [leafBox ("z") 0 0]

/-- Scenario 2 of the spec: ROW with two weighted children, weights 1 and 2. -/
def scen2Root : Box :=
  Box.mk ROW none [leafBox ("a") 0 1, leafBox ("b") 0 2] none ("") 0 0

/-- Scenario 3 of the spec: COLUMN with three weight-1 children. -/
def scen3Root : Box :=
  Box.mk COLUMN none [leafBox ("a") 0 1, leafBox ("b") 0 1, leafBox ("c") 0 1] none ("") 0 0

/-- Scenario 5 of the spec: a single static child of Size 50. -/
def scen5Root : Box :=
  Box.mk COLUMN none [leafBox ("v") 50 0] none ("") 0 0

theorem log2Fuel_eq_log2 : ∀ (fuel n : Nat), n ≤ fuel → log2Fuel fuel n = Nat.log2 n := by
  intro fuel
  induction fuel with
  | zero =>
    intro n hn
    have hn0 : n = 0 := by omega
    subst hn0
    rw [log2Fuel, Nat.log2]
    norm_num
  | succ fuel ih =>
    intro n hn
    rw [log2Fuel, Nat.log2]
    by_cases h1 : n ≤ 1
    · rw [if_pos h1, if_neg (by omega)]
    · rw [if_neg h1, if_pos (by omega), ih (n / 2) (by omega)]

theorem rnd53_of_le {n : Nat} (h : n ≤ 2 ^ 53) : rnd53 n = n := by
  unfold rnd53
  rw [if_pos h]

theorem rnd53Int_of_nonneg_le {a : Int} (h0 : 0 ≤ a) (h53 : a ≤ 2 ^ 53) :
    rnd53Int a = a := by
  have hlt : ¬ a < 0 := not_lt.mpr h0
  have htn : a.toNat ≤ 2 ^ 53 := by
    omega
  simp [rnd53Int, hlt, rnd53_of_le htn, Int.toNat_of_nonneg h0]

theorem rnd53Int_nonneg {a : Int} (h0 : 0 ≤ a) : 0 ≤ rnd53Int a := by
  have hlt : ¬ a < 0 := not_lt.mpr h0
  simp [rnd53Int, hlt]

theorem goFloat64Min_eq_min {a b : Int} (ha0 : 0 ≤ a) (ha : a ≤ 2 ^ 53)
    (hb0 : 0 ≤ b) (hb : b ≤ 2 ^ 53) : goFloat64Min a b = min a b := by
  rw [goFloat64Min, rnd53Int_of_nonneg_le ha0 ha, rnd53Int_of_nonneg_le hb0 hb,
    min_def]

theorem goFloat64Min_zero_left_nonpos (b : Int) : goFloat64Min 0 b ≤ 0 := by
  have h0 : rnd53Int 0 = 0 := rnd53Int_of_nonneg_le le_rfl (by norm_num)
  rw [goFloat64Min, h0]
  split
  · exact le_rfl
  · omega

theorem goFloat64Min_zero_left_of_nonneg {b : Int} (hb : 0 ≤ b) :
    goFloat64Min 0 b = 0 := by
  have h0 : rnd53Int 0 = 0 := rnd53Int_of_nonneg_le le_rfl (by norm_num)
  rw [goFloat64Min, h0, if_pos (rnd53Int_nonneg hb)]

theorem nextExtra_static {e : Int} {c : Box} (h : c.isStatic) :
    nextExtra e c = e := by
  simp [nextExtra, h]

theorem nextExtra_of_bounds {e : Int} {c : Box} (he0 : 0 ≤ e) (he : e ≤ 2 ^ 53)
    (hw0 : 0 ≤ c.Weight) (hw : c.Weight ≤ 2 ^ 53) :
    nextExtra e c = if c.isStatic then e else e - min e c.Weight := by
  rw [nextExtra, goFloat64Min_eq_min he0 he hw0 hw]

theorem nextExtra_nonneg {e : Int} {c : Box} (he0 : 0 ≤ e) (he : e ≤ 2 ^ 53)
    (hw0 : 0 ≤ c.Weight) (hw : c.Weight ≤ 2 ^ 53) : 0 ≤ nextExtra e c := by
  rw [nextExtra_of_bounds he0 he hw0 hw]
  split
  · exact he0
  · have := min_le_left e c.Weight
    omega

theorem nextExtra_le {e : Int} {c : Box} (he0 : 0 ≤ e) (he : e ≤ 2 ^ 53)
    (hw0 : 0 ≤ c.Weight) (hw : c.Weight ≤ 2 ^ 53) : nextExtra e c ≤ e := by
  rw [nextExtra_of_bounds he0 he hw0 hw]
  split
  · exact le_rfl
  · have h1 := le_min he0 hw0
    have h2 : 0 ≤ min e c.Weight := le_min he0 hw0
    omega

theorem childBoxSize_static {u e : Int} {c : Box} (h : c.isStatic) :
    childBoxSize u e c = c.Size := by
  simp [childBoxSize, h]

theorem childBoxSize_weighted {u e : Int} {c : Box} (h : ¬ c.isStatic)
    (he0 : 0 ≤ e) (he : e ≤ 2 ^ 53) (hw0 : 0 ≤ c.Weight) (hw : c.Weight ≤ 2 ^ 53) :
    childBoxSize u e c = u * c.Weight + min e c.Weight := by
  simp [childBoxSize, h, goFloat64Min_eq_min he0 he hw0 hw]

theorem totalWeightOf_nonneg {cs : List Box} (hw : ∀ c ∈ cs, 0 ≤ c.Weight) :
    0 ≤ totalWeightOf cs := by
  refine List.sum_nonneg ?_
  intro x hx
  rcases List.mem_map.mp hx with ⟨c, hc, rfl⟩
  exact hw c hc

theorem weightedTotal_nonneg {cs : List Box} (hw : ∀ c ∈ cs, 0 ≤ c.Weight) :
    0 ≤ weightedTotal cs := by
  refine List.sum_nonneg ?_
  intro x hx
  rcases List.mem_map.mp hx with ⟨c, hc, rfl⟩
  exact hw c (List.mem_of_mem_filter hc)

theorem weight_le_totalWeight {cs : List Box} {c : Box}
    (hw : ∀ d ∈ cs, 0 ≤ d.Weight) (hc : c ∈ cs) : c.Weight ≤ totalWeightOf cs := by
  refine List.single_le_sum ?_ _ (List.mem_map_of_mem Box.Weight hc)
  intro x hx
  rcases List.mem_map.mp hx with ⟨d, hd, rfl⟩
  exact hw d hd

theorem staticTotal_cons_static {c : Box} {rest : List Box} (h : c.isStatic) :
    staticTotal (c :: rest) = c.Size + staticTotal rest := by
  simp [staticTotal, List.filter_cons, h]

theorem staticTotal_cons_weighted {c : Box} {rest : List Box} (h : ¬ c.isStatic) :
    staticTotal (c :: rest) = staticTotal rest := by
  simp [staticTotal, List.filter_cons, h]

theorem weightedTotal_cons_static {c : Box} {rest : List Box} (h : c.isStatic) :
    weightedTotal (c :: rest) = weightedTotal rest := by
  simp [weightedTotal, List.filter_cons, h]

theorem weightedTotal_cons_weighted {c : Box} {rest : List Box} (h : ¬ c.isStatic) :
    weightedTotal (c :: rest) = c.Weight + weightedTotal rest := by
  simp [weightedTotal, List.filter_cons, h]

theorem isStatic_false_size_zero {c : Box} (hconv : 0 ≤ c.Size)
    (h : ¬ c.isStatic) : c.Size = 0 := by
  simp [Box.isStatic] at h
  omega

theorem isStatic_true_weight_zero {c : Box} (hconv : 0 < c.Size → c.Weight = 0)
    (h : c.isStatic) : c.Weight = 0 := by
  simp [Box.isStatic] at h
  exact hconv h

theorem reservedSizeOf_eq_staticTotal {cs : List Box} (h : SizingConvention cs) :
    reservedSizeOf cs = staticTotal cs := by
  induction cs with
  | nil => rfl
  | cons c rest ih =>
    have hc := h c (List.mem_cons_self c rest)
    have hrest : SizingConvention rest := fun d hd => h d (List.mem_cons_of_mem c hd)
    by_cases hs : c.isStatic
    · rw [staticTotal_cons_static hs]
      simp only [reservedSizeOf, List.map_cons, List.sum_cons] at *
      rw [ih hrest]
    · rw [staticTotal_cons_weighted hs]
      simp only [reservedSizeOf, List.map_cons, List.sum_cons] at *
      rw [isStatic_false_size_zero hc.1 hs, ih hrest]
      ring

theorem totalWeightOf_eq_weightedTotal {cs : List Box} (h : SizingConvention cs) :
    totalWeightOf cs = weightedTotal cs := by
  induction cs with
  | nil => rfl
  | cons c rest ih =>
    have hc := h c (List.mem_cons_self c rest)
    have hrest : SizingConvention rest := fun d hd => h d (List.mem_cons_of_mem c hd)
    by_cases hs : c.isStatic
    · rw [weightedTotal_cons_static hs]
      simp only [totalWeightOf, List.map_cons, List.sum_cons] at *
      rw [isStatic_true_weight_zero hc.2.2 hs, ih hrest]
      ring
    · rw [weightedTotal_cons_weighted hs]
      simp only [totalWeightOf, List.map_cons, List.sum_cons] at *
      rw [ih hrest]

theorem weightedSizesGo_cons_static {u e : Int} {c : Box} {cs : List Box}
    (h : c.isStatic) :
    weightedSizesGo u (c :: cs) e = weightedSizesGo u cs (nextExtra e c) := by
  simp [weightedSizesGo, h]

theorem weightedSizesGo_cons_weighted {u e : Int} {c : Box} {cs : List Box}
    (h : ¬ c.isStatic) :
    weightedSizesGo u (c :: cs) e
      = childBoxSize u e c :: weightedSizesGo u cs (nextExtra e c) := by
  simp [weightedSizesGo, h]

theorem weightedSizesGo_sum {u : Int} {cs : List Box} {e : Int}
    (hw : ∀ c ∈ cs, 0 ≤ c.Weight ∧ c.Weight ≤ 2 ^ 53)
    (he0 : 0 ≤ e) (he53 : e ≤ 2 ^ 53) (hle : e ≤ weightedTotal cs) :
    (weightedSizesGo u cs e).sum = u * weightedTotal cs + e := by
  induction cs generalizing e with
  | nil =>
    have h0 : weightedTotal [] = 0 := rfl
    rw [h0] at hle
    have he : e = 0 := le_antisymm hle he0
    subst he
    simp only [weightedSizesGo, List.sum_nil, h0]
    ring
  | cons c rest ih =>
    have hc := hw c (List.mem_cons_self c rest)
    have hrest : ∀ d ∈ rest, 0 ≤ d.Weight ∧ d.Weight ≤ 2 ^ 53 :=
      fun d hd => hw d (List.mem_cons_of_mem c hd)
    have hwt0 : 0 ≤ weightedTotal rest := weightedTotal_nonneg (fun d hd => (hrest d hd).1)
    by_cases hs : c.isStatic
    · rw [weightedTotal_cons_static hs] at *
      rw [weightedSizesGo_cons_static hs, nextExtra_static hs]
      exact ih hrest he0 he53 hle
    · rw [weightedTotal_cons_weighted hs] at hle ⊢
      have hmin1 := min_le_left e c.Weight
      have hmin2 := min_le_right e c.Weight
      have hminc := min_choice e c.Weight
      have hne : nextExtra e c = e - min e c.Weight := by
        rw [nextExtra_of_bounds he0 he53 hc.1 hc.2, if_neg hs]
      have hcb : childBoxSize u e c = u * c.Weight + min e c.Weight :=
        childBoxSize_weighted hs he0 he53 hc.1 hc.2
      have he0' : 0 ≤ nextExtra e c := by rw [hne]; omega
      have he53' : nextExtra e c ≤ 2 ^ 53 := by rw [hne]; omega
      have hle' : nextExtra e c ≤ weightedTotal rest := by rw [hne]; omega
      rw [weightedSizesGo_cons_weighted hs]
      simp only [List.sum_cons]
      rw [ih hrest he0' he53' hle', hcb, hne]
      ring

theorem remainingSizeOf_nonneg (availableSize : Int) (cs : List Box) :
    0 ≤ remainingSizeOf availableSize cs := by
  simp only [remainingSizeOf]
  split <;> omega

theorem remainingSizeOf_of_le {availableSize : Int} {cs : List Box}
    (h : reservedSizeOf cs ≤ availableSize) :
    remainingSizeOf availableSize cs = availableSize - reservedSizeOf cs := by
  simp only [remainingSizeOf]
  split <;> omega

theorem remainingSizeOf_of_ge {availableSize : Int} {cs : List Box}
    (h : availableSize ≤ reservedSizeOf cs) :
    remainingSizeOf availableSize cs = 0 := by
  simp only [remainingSizeOf]
  split
  · rfl
  · omega

theorem unit_mul_add_extra {availableSize : Int} {cs : List Box}
    (hW : 0 < totalWeightOf cs) :
    totalWeightOf cs * unitSizeOf availableSize cs + extraSizeOf availableSize cs
      = remainingSizeOf availableSize cs := by
  simp only [unitSizeOf, extraSizeOf, if_pos hW]
  exact Int.tdiv_add_tmod _ _

theorem extraSizeOf_nonneg {availableSize : Int} {cs : List Box}
    (hW : 0 < totalWeightOf cs) : 0 ≤ extraSizeOf availableSize cs := by
  simp only [extraSizeOf, if_pos hW]
  exact Int.tmod_nonneg _ (remainingSizeOf_nonneg availableSize cs)

theorem extraSizeOf_lt {availableSize : Int} {cs : List Box}
    (hW : 0 < totalWeightOf cs) :
    extraSizeOf availableSize cs < totalWeightOf cs := by
  simp only [extraSizeOf, if_pos hW]
  exact Int.tmod_lt_of_pos _ hW

theorem unitSizeOf_of_nonpos {availableSize : Int} {cs : List Box}
    (hW : ¬ 0 < totalWeightOf cs) : unitSizeOf availableSize cs = 0 := by
  simp only [unitSizeOf]
  rw [if_neg]
  exact hW

theorem extraSizeOf_of_nonpos {availableSize : Int} {cs : List Box}
    (hW : ¬ 0 < totalWeightOf cs) : extraSizeOf availableSize cs = 0 := by
  simp only [extraSizeOf]
  rw [if_neg]
  exact hW

theorem sum_map_filter_split (f : Box → Int) (p : Box → Bool) (cs : List Box) :
    (cs.map f).sum
      = ((cs.filter p).map f).sum + ((cs.filter fun c => !p c).map f).sum := by
  induction cs with
  | nil => rfl
  | cons c rest ih =>
    by_cases hp : p c
    · simp only [List.map_cons, List.sum_cons, List.filter_cons, hp]
      simp only [Bool.not_true, Bool.false_eq_true, if_false, if_true, List.map_cons,
        List.sum_cons]
      rw [ih]
      ring
    · have hp' : p c = false := by simpa using hp
      simp only [List.map_cons, List.sum_cons, List.filter_cons, hp']
      simp only [Bool.not_false, Bool.false_eq_true, if_false, if_true, List.map_cons,
        List.sum_cons]
      rw [ih]
      ring

theorem arrangeChildren_nil (root : Box) (dir x0 y0 w h u : Int)
    (hcs : ∀ c ∈ ([] : List Box), Box.IsChild c root) (result : DMap) (offset e : Int) :
    arrangeChildren root dir x0 y0 w h u [] hcs result offset e = result := by
  simp [arrangeChildren]

theorem arrangeChildren_cons (root : Box) (dir x0 y0 w h u : Int) (c : Box)
    (rest : List Box) (hcs : ∀ d ∈ c :: rest, Box.IsChild d root) (result : DMap)
    (offset e : Int) :
    arrangeChildren root dir x0 y0 w h u (c :: rest) hcs result offset e =
      arrangeChildren root dir x0 y0 w h u rest
        (fun d hd => hcs d (List.mem_cons_of_mem c hd))
        (mergeDimensionMaps result
          (if dir = COLUMN then ArrangeViews c (x0 + offset) y0 (childBoxSize u e c) h
           else ArrangeViews c x0 (y0 + offset) w (childBoxSize u e c)))
        (offset + childBoxSize u e c) (nextExtra e c) := by
  rw [arrangeChildren]

theorem ArrangeViews_leaf_view {root : Box} {width height : Int} (x0 y0 : Int)
    (hch : (root.getChildren width height).length = 0) (hvn : root.ViewName ≠ "") :
    ArrangeViews root x0 y0 width height =
      [(root.ViewName,
        { X0 := x0, Y0 := y0, X1 := x0 + width - 1, Y1 := y0 + height - 1 })] := by
  rw [ArrangeViews]
  simp [hch, hvn]

theorem ArrangeViews_leaf_noview {root : Box} {width height : Int} (x0 y0 : Int)
    (hch : (root.getChildren width height).length = 0) (hvn : root.ViewName = "") :
    ArrangeViews root x0 y0 width height = [] := by
  rw [ArrangeViews]
  simp [hch, hvn]

theorem ArrangeViews_internal {root : Box} {width height : Int} (x0 y0 : Int)
    (hch : ¬ (root.getChildren width height).length = 0) :
    ArrangeViews root x0 y0 width height =
      arrangeChildren root (root.getDirection width height) x0 y0 width height
        (unitSizeOf (availableSizeOf (root.getDirection width height) width height)
          (root.getChildren width height))
        (root.getChildren width height)
        (fun c hc => Box.getChildren_isChild hc) [] 0
        (extraSizeOf (availableSizeOf (root.getDirection width height) width height)
          (root.getChildren width height)) := by
  rw [ArrangeViews]
  simp [hch]

theorem arrangeChildrenWith_sound
    (f : Box → Int → Int → Int → Int → Option DMap)
    (hf : ∀ c a b w h r, f c a b w h = some r → ArrangeViews c a b w h = r)
    (root : Box) (dir x0 y0 w h u : Int) :
    ∀ (cs : List Box) (hcs : ∀ c ∈ cs, Box.IsChild c root) (result : DMap)
      (offset e : Int) (r : DMap),
      arrangeChildrenWith f dir x0 y0 w h u cs result offset e = some r →
      arrangeChildren root dir x0 y0 w h u cs hcs result offset e = r := by
  intro cs
  induction cs with
  | nil =>
    intro hcs result offset e r hr
    simp only [arrangeChildrenWith, Option.some.injEq] at hr
    rw [arrangeChildren_nil, hr]
  | cons c rest ih =>
    intro hcs result offset e r hr
    rw [arrangeChildren_cons]
    simp only [arrangeChildrenWith] at hr
    cases hfc : (if dir = COLUMN then f c (x0 + offset) y0 (childBoxSize u e c) h
                 else f c x0 (y0 + offset) w (childBoxSize u e c)) with
    | none =>
      rw [hfc] at hr
      exact absurd hr (by simp)
    | some rc =>
      rw [hfc] at hr
      have hA : (if dir = COLUMN then ArrangeViews c (x0 + offset) y0 (childBoxSize u e c) h
                 else ArrangeViews c x0 (y0 + offset) w (childBoxSize u e c)) = rc := by
        by_cases hdir : dir = COLUMN
        · rw [if_pos hdir] at hfc ⊢
          exact hf _ _ _ _ _ _ hfc
        · rw [if_neg hdir] at hfc ⊢
          exact hf _ _ _ _ _ _ hfc
      rw [hA]
      exact ih _ _ _ _ _ hr

theorem arrangeViewsFuel_sound :
    ∀ (n : Nat) (b : Box) (x0 y0 w h : Int) (r : DMap),
      arrangeViewsFuel n b x0 y0 w h = some r → ArrangeViews b x0 y0 w h = r := by
  intro n
  induction n with
  | zero =>
    intro b x0 y0 w h r hr
    exact absurd hr (by simp [arrangeViewsFuel])
  | succ n ih =>
    intro b x0 y0 w h r hr
    simp only [arrangeViewsFuel] at hr
    by_cases hch : (b.getChildren w h).length = 0
    · rw [if_pos hch] at hr
      by_cases hvn : b.ViewName ≠ ""
      · rw [if_pos hvn, Option.some.injEq] at hr
        rw [ArrangeViews_leaf_view x0 y0 hch hvn, hr]
      · rw [if_neg hvn, Option.some.injEq] at hr
        rw [ArrangeViews_leaf_noview x0 y0 hch (by simpa using hvn), hr]
    · rw [if_neg hch] at hr
      rw [ArrangeViews_internal x0 y0 hch]
      exact arrangeChildrenWith_sound _ (fun c a b' w' h' r' hr' => ih c a b' w' h' r' hr')
        b _ x0 y0 w h _ _ _ _ _ _ _ hr

theorem arrangeChildrenWith_mono_ptwise
    (f g : Box → Int → Int → Int → Int → Option DMap)
    (hfg : ∀ c a b w h r, f c a b w h = some r → g c a b w h = some r)
    (dir x0 y0 w h u : Int) :
    ∀ (cs : List Box) (result : DMap) (offset e : Int) (r : DMap),
      arrangeChildrenWith f dir x0 y0 w h u cs result offset e = some r →
      arrangeChildrenWith g dir x0 y0 w h u cs result offset e = some r := by
  intro cs
  induction cs with
  | nil =>
    intro result offset e r hr
    simpa [arrangeChildrenWith] using hr
  | cons c rest ih =>
    intro result offset e r hr
    simp only [arrangeChildrenWith] at hr ⊢
    cases hfc : (if dir = COLUMN then f c (x0 + offset) y0 (childBoxSize u e c) h
                 else f c x0 (y0 + offset) w (childBoxSize u e c)) with
    | none =>
      rw [hfc] at hr
      exact absurd hr (by simp)
    | some rc =>
      rw [hfc] at hr
      have hgc : (if dir = COLUMN then g c (x0 + offset) y0 (childBoxSize u e c) h
                  else g c x0 (y0 + offset) w (childBoxSize u e c)) = some rc := by
        by_cases hdir : dir = COLUMN
        · rw [if_pos hdir] at hfc ⊢
          exact hfg _ _ _ _ _ _ hfc
        · rw [if_neg hdir] at hfc ⊢
          exact hfg _ _ _ _ _ _ hfc
      rw [hgc]
      exact ih _ _ _ _ hr

theorem arrangeViewsFuel_mono :
    ∀ (n m : Nat), n ≤ m → ∀ (b : Box) (x0 y0 w h : Int) (r : DMap),
      arrangeViewsFuel n b x0 y0 w h = some r → arrangeViewsFuel m b x0 y0 w h = some r := by
  intro n
  induction n with
  | zero =>
    intro m hm b x0 y0 w h r hr
    exact absurd hr (by simp [arrangeViewsFuel])
  | succ n ih =>
    intro m hm b x0 y0 w h r hr
    cases m with
    | zero => omega
    | succ m =>
      have hnm : n ≤ m := by omega
      simp only [arrangeViewsFuel] at hr ⊢
      by_cases hch : (b.getChildren w h).length = 0
      · rw [if_pos hch] at hr ⊢
        exact hr
      · rw [if_neg hch] at hr ⊢
        exact arrangeChildrenWith_mono_ptwise _ _
          (fun c a b' w' h' r' hr' => ih m hnm c a b' w' h' r' hr') _ _ _ _ _ _ _ _ _ _ _ hr

theorem arrangeChildrenWith_total (dir x0 y0 w h u : Int) :
    ∀ (cs : List Box),
      (∀ c ∈ cs, ∀ (a b : Int) (ww hh : Int), ∃ n r, arrangeViewsFuel n c a b ww hh = some r) →
      ∀ (result : DMap) (offset e : Int), ∃ n r,
        arrangeChildrenWith (fun c a b ww hh => arrangeViewsFuel n c a b ww hh)
          dir x0 y0 w h u cs result offset e = some r := by
  intro cs
  induction cs with
  | nil =>
    intro _ result offset e
    exact ⟨0, result, rfl⟩
  | cons c rest ih =>
    intro hex result offset e
    have hc := hex c (List.mem_cons_self c rest)
    have hrest : ∀ d ∈ rest, ∀ (a b : Int) (ww hh : Int),
        ∃ n r, arrangeViewsFuel n d a b ww hh = some r :=
      fun d hd => hex d (List.mem_cons_of_mem c hd)
    obtain ⟨n1, r1, hn1⟩ :
        ∃ n r, (if dir = COLUMN then
            arrangeViewsFuel n c (x0 + offset) y0 (childBoxSize u e c) h
          else arrangeViewsFuel n c x0 (y0 + offset) w (childBoxSize u e c)) = some r := by
      by_cases hdir : dir = COLUMN
      · obtain ⟨n, r, hn⟩ := hc (x0 + offset) y0 (childBoxSize u e c) h
        exact ⟨n, r, by rw [if_pos hdir]; exact hn⟩
      · obtain ⟨n, r, hn⟩ := hc x0 (y0 + offset) w (childBoxSize u e c)
        exact ⟨n, r, by rw [if_neg hdir]; exact hn⟩
    obtain ⟨n2, r2, hn2⟩ :=
      ih hrest (mergeDimensionMaps result r1) (offset + childBoxSize u e c) (nextExtra e c)
    refine ⟨max n1 n2, r2, ?_⟩
    have hn1' : (if dir = COLUMN then
        arrangeViewsFuel (max n1 n2) c (x0 + offset) y0 (childBoxSize u e c) h
      else arrangeViewsFuel (max n1 n2) c x0 (y0 + offset) w (childBoxSize u e c)) = some r1 := by
      by_cases hdir : dir = COLUMN
      · rw [if_pos hdir] at hn1 ⊢
        exact arrangeViewsFuel_mono n1 _ (Nat.le_max_left n1 n2) _ _ _ _ _ _ hn1
      · rw [if_neg hdir] at hn1 ⊢
        exact arrangeViewsFuel_mono n1 _ (Nat.le_max_left n1 n2) _ _ _ _ _ _ hn1
    have hn2' := arrangeChildrenWith_mono_ptwise _ _
      (fun d a b' w' h' r' hr' =>
        arrangeViewsFuel_mono n2 _ (Nat.le_max_right n1 n2) d a b' w' h' r' hr')
      dir x0 y0 w h u rest _ _ _ _ hn2
    simp only [arrangeChildrenWith]
    rw [hn1']
    exact hn2'

theorem ArrangeViews_total (b : Box) :
    ∀ (x0 y0 w h : Int), ∃ n r, arrangeViewsFuel n b x0 y0 w h = some r := by
  refine @WellFounded.induction Box Box.IsChild ⟨Box.accIsChild⟩
    (fun b => ∀ (x0 y0 w h : Int), ∃ n r, arrangeViewsFuel n b x0 y0 w h = some r) b ?_
  intro x ihx x0 y0 w h
  by_cases hch : (x.getChildren w h).length = 0
  · refine ⟨1, if x.ViewName ≠ "" then
      [(x.ViewName, { X0 := x0, Y0 := y0, X1 := x0 + w - 1, Y1 := y0 + h - 1 })]
      else [], ?_⟩
    simp only [arrangeViewsFuel]
    rw [if_pos hch]
    by_cases hvn : x.ViewName ≠ ""
    · rw [if_pos hvn, if_pos hvn]
    · rw [if_neg hvn, if_neg hvn]
  · have hex : ∀ c ∈ x.getChildren w h, ∀ (a b : Int) (ww hh : Int),
        ∃ n r, arrangeViewsFuel n c a b ww hh = some r :=
      fun c hc => ihx c (Box.getChildren_isChild hc)
    obtain ⟨n, r, hn⟩ := arrangeChildrenWith_total
      (x.getDirection w h) x0 y0 w h
      (unitSizeOf (availableSizeOf (x.getDirection w h) w h) (x.getChildren w h))
      (x.getChildren w h) hex [] 0
      (extraSizeOf (availableSizeOf (x.getDirection w h) w h) (x.getChildren w h))
    refine ⟨n + 1, r, ?_⟩
    simp only [arrangeViewsFuel]
    rw [if_neg hch]
    exact hn

theorem ArrangeViews_ofFuel {n : Nat} {b : Box} {x0 y0 w h : Int} {r : DMap}
    (hf : arrangeViewsFuel n b x0 y0 w h = some r) : ArrangeViews b x0 y0 w h = r :=
  arrangeViewsFuel_sound n b x0 y0 w h r hf

/-- C5: for every box whose resolved children list is empty and every
allocation (x0, y0, width, height), including zero width or height: with a
non-empty view identifier the result is exactly the single-entry mapping
sending the view name to the rectangle (x0, y0, x0+width-1, y0+height-1);
with an empty view identifier the result is the empty mapping. -/
theorem claim_C5 (b : Box) (x0 y0 width height : Int)
    (hch : b.getChildren width height = []) :
    (b.ViewName ≠ "" → ArrangeViews b x0 y0 width height =
      [(b.ViewName, { X0 := x0, Y0 := y0, X1 := x0 + width - 1, Y1 := y0 + height - 1 })])
    ∧ (b.ViewName = "" → ArrangeViews b x0 y0 width height = []) := by
  have hlen : (b.getChildren width height).length = 0 := by rw [hch]; rfl
  exact ⟨fun hvn => ArrangeViews_leaf_view x0 y0 hlen hvn,
         fun hvn => ArrangeViews_leaf_noview x0 y0 hlen hvn⟩

/-- C5 witness: a concrete leaf with width 0 (degenerate allocation). -/
theorem claim_C5_witness :
    (leafBox ("v") 0 0).getChildren 0 7 = []
    ∧ ArrangeViews (leafBox ("v") 0 0) 2 3 0 7
        = [(("v"), { X0 := 2, Y0 := 3, X1 := 2 + 0 - 1, Y1 := 3 + 7 - 1 })] :=
  ⟨rfl, (claim_C5 (leafBox ("v") 0 0) 2 3 0 7 rfl).1 (by decide)⟩

/-- C3 counterexample: for a child carrying both a positive Size and a
positive Weight, the first pass adds its Weight to `totalWeight`, so
`totalWeight` is NOT the sum of the weights of only the non-static
children. -/
theorem claim_C3_cex :
    totalWeightOf [leafBox ("v") 1 1] = 1
    ∧ weightedTotal [leafBox ("v") 1 1] = 0
    ∧ totalWeightOf [leafBox ("v") 1 1] ≠ weightedTotal [leafBox ("v") 1 1] := by
  refine ⟨by decide, by decide, by decide⟩

/-- C3 (amended): the first pass sums the Size fields of all children into
`reservedSize` and the Weight fields of ALL children (static ones included)
into `totalWeight`; under the documented sizing convention this coincides
with the claim's reading (static sizes only, non-static weights only). -/
theorem claim_C3 (cs : List Box) :
    reservedSizeOf cs
      = staticTotal cs + ((cs.filter fun c => !c.isStatic).map Box.Size).sum
    ∧ totalWeightOf cs
      = ((cs.filter fun c => c.isStatic).map Box.Weight).sum + weightedTotal cs
    ∧ (SizingConvention cs →
        reservedSizeOf cs = staticTotal cs ∧ totalWeightOf cs = weightedTotal cs) := by
  refine ⟨?_, ?_, fun hconv =>
    ⟨reservedSizeOf_eq_staticTotal hconv, totalWeightOf_eq_weightedTotal hconv⟩⟩
  · exact sum_map_filter_split Box.Size (fun c => c.isStatic) cs
  · exact sum_map_filter_split Box.Weight (fun c => c.isStatic) cs

/-- C3 witness: a convention-respecting child list (one static box of weight
0, one weighted box of size 0), where the two readings agree. -/
theorem claim_C3_witness :
    SizingConvention [leafBox ("a") 2 0, leafBox ("b") 0 3]
    ∧ reservedSizeOf [leafBox ("a") 2 0, leafBox ("b") 0 3]
        = staticTotal [leafBox ("a") 2 0, leafBox ("b") 0 3]
    ∧ totalWeightOf [leafBox ("a") 2 0, leafBox ("b") 0 3]
        = weightedTotal [leafBox ("a") 2 0, leafBox ("b") 0 3] :=
  ⟨by decide,
   ((claim_C3 [leafBox ("a") 2 0, leafBox ("b") 0 3]).2.2 (by decide)).1,
   ((claim_C3 [leafBox ("a") 2 0, leafBox ("b") 0 3]).2.2 (by decide)).2⟩

/-- C1 counterexample: an internal COLUMN box of width 10 whose first child
carries Size 5 together with Weight 1 (the convention-violating case the
code's first pass does not guard against).  totalWeight is 2 > 0 and
reservedSize is 5 ≤ 10, yet the static sizes plus the weighted extents sum
to 8, not 10: the static child's weight dilutes the unit without the child
drawing from the remaining space. -/
theorem claim_C1_cex :
    ((Box.mk COLUMN none mixCexChildren none ("") 0 0).getChildren 10 1).length ≠ 0
    ∧ 0 < totalWeightOf
        ((Box.mk COLUMN none mixCexChildren none ("") 0 0).getChildren 10 1)
    ∧ reservedSizeOf
        ((Box.mk COLUMN none mixCexChildren none ("") 0 0).getChildren 10 1)
      ≤ availableSizeOf
          ((Box.mk COLUMN none mixCexChildren none ("") 0 0).getDirection 10 1) 10 1
    ∧ staticTotal ((Box.mk COLUMN none mixCexChildren none ("") 0 0).getChildren 10 1)
        + (weightedSizesGo
            (unitSizeOf
              (availableSizeOf
                ((Box.mk COLUMN none mixCexChildren none ("") 0 0).getDirection 10 1) 10 1)
              ((Box.mk COLUMN none mixCexChildren none ("") 0 0).getChildren 10 1))
            ((Box.mk COLUMN none mixCexChildren none ("") 0 0).getChildren 10 1)
            (extraSizeOf
              (availableSizeOf
                ((Box.mk COLUMN none mixCexChildren none ("") 0 0).getDirection 10 1) 10 1)
              ((Box.mk COLUMN none mixCexChildren none ("") 0 0).getChildren 10 1))).sum
      ≠ availableSizeOf
          ((Box.mk COLUMN none mixCexChildren none ("") 0 0).getDirection 10 1) 10 1 := by
  refine ⟨by decide, by decide, by decide, by decide⟩

/-- C1 (amended): for every internal box with non-empty resolved children,
if the children respect the documented sizing convention (non-negative Size
and Weight, no box with both positive), totalWeight is positive and at most
2^53 (so the float64 min in the remainder draw is exact), and reservedSize
is at most availableSize, then the static sizes plus the computed weighted
extents along the partitioned axis sum exactly to availableSize. -/
theorem claim_C1 (b : Box) (width height : Int)
    (hne : (b.getChildren width height).length ≠ 0)
    (hconv : SizingConvention (b.getChildren width height))
    (hbound : totalWeightOf (b.getChildren width height) ≤ 2 ^ 53)
    (hW : 0 < totalWeightOf (b.getChildren width height))
    (hres : reservedSizeOf (b.getChildren width height)
      ≤ availableSizeOf (b.getDirection width height) width height) :
    staticTotal (b.getChildren width height)
      + (weightedSizesGo
          (unitSizeOf (availableSizeOf (b.getDirection width height) width height)
            (b.getChildren width height))
          (b.getChildren width height)
          (extraSizeOf (availableSizeOf (b.getDirection width height) width height)
            (b.getChildren width height))).sum
      = availableSizeOf (b.getDirection width height) width height := by
  set cs := b.getChildren width height with hcsdef
  set avail := availableSizeOf (b.getDirection width height) width height with havaildef
  have hw0 : ∀ d ∈ cs, 0 ≤ d.Weight := fun d hd => (hconv d hd).2.1
  have hwOK : ∀ c ∈ cs, 0 ≤ c.Weight ∧ c.Weight ≤ 2 ^ 53 :=
    fun c hc => ⟨hw0 c hc, le_trans (weight_le_totalWeight hw0 hc) hbound⟩
  have he0 : 0 ≤ extraSizeOf avail cs := extraSizeOf_nonneg hW
  have helt : extraSizeOf avail cs < totalWeightOf cs := extraSizeOf_lt hW
  have he53 : extraSizeOf avail cs ≤ 2 ^ 53 := le_trans (le_of_lt helt) hbound
  have hwt : totalWeightOf cs = weightedTotal cs := totalWeightOf_eq_weightedTotal hconv
  have hle : extraSizeOf avail cs ≤ weightedTotal cs := by
    rw [← hwt]
    exact le_of_lt helt
  rw [weightedSizesGo_sum hwOK he0 he53 hle, ← hwt]
  have hdec := @unit_mul_add_extra avail cs hW
  have hrem : remainingSizeOf avail cs = avail - reservedSizeOf cs :=
    remainingSizeOf_of_le hres
  have hstat : reservedSizeOf cs = staticTotal cs := reservedSizeOf_eq_staticTotal hconv
  have hcomm : totalWeightOf cs * unitSizeOf avail cs
      = unitSizeOf avail cs * totalWeightOf cs := mul_comm _ _
  linarith [hdec, hrem, hstat, hcomm]

/-- C1 witness: scenario 2 of the spec (ROW, weights 1 and 2, height 30):
the convention holds and the weighted extents consume the height exactly. -/
theorem claim_C1_witness :
    (scen2Root.getChildren 10 30).length ≠ 0
    ∧ SizingConvention (scen2Root.getChildren 10 30)
    ∧ staticTotal (scen2Root.getChildren 10 30)
        + (weightedSizesGo
            (unitSizeOf (availableSizeOf (scen2Root.getDirection 10 30) 10 30)
              (scen2Root.getChildren 10 30))
            (scen2Root.getChildren 10 30)
            (extraSizeOf (availableSizeOf (scen2Root.getDirection 10 30) 10 30)
              (scen2Root.getChildren 10 30))).sum
      = availableSizeOf (scen2Root.getDirection 10 30) 10 30 :=
  ⟨by decide, by decide,
   claim_C1 scen2Root 10 30 (by decide) (by decide) (by decide) (by decide) (by decide)⟩

/-- C9: a child with strictly negative Size is non-static (hence weighted),
yet its negative Size is still added into `reservedSize`, which makes the
remaining pool behave exactly as if the available size had been enlarged by
the absolute value of that Size — strictly more space to distribute among
the weighted children — while the weight sums are unaffected. -/
theorem claim_C9 (c : Box) (cs : List Box) (availableSize : Int)
    (hneg : c.Size < 0) :
    c.isStatic = false
    ∧ reservedSizeOf (c :: cs) = c.Size + reservedSizeOf cs
    ∧ remainingSizeOf availableSize (c :: cs)
        = remainingSizeOf (availableSize - c.Size) cs
    ∧ availableSize < availableSize - c.Size
    ∧ remainingSizeOf availableSize cs ≤ remainingSizeOf availableSize (c :: cs)
    ∧ totalWeightOf (c :: cs) = c.Weight + totalWeightOf cs := by
  have hstat : c.isStatic = false := by
    simp [Box.isStatic]
    omega
  have hres : reservedSizeOf (c :: cs) = c.Size + reservedSizeOf cs := by
    simp [reservedSizeOf]
  have hshift : remainingSizeOf availableSize (c :: cs)
      = remainingSizeOf (availableSize - c.Size) cs := by
    simp only [remainingSizeOf, hres]
    have harith : availableSize - (c.Size + reservedSizeOf cs)
        = availableSize - c.Size - reservedSizeOf cs := by ring
    rw [harith]
  have hmono : remainingSizeOf availableSize cs
      ≤ remainingSizeOf availableSize (c :: cs) := by
    rw [hshift]
    simp only [remainingSizeOf]
    split_ifs <;> omega
  refine ⟨hstat, hres, hshift, by omega, hmono, by simp [totalWeightOf]⟩

/-- C9 witness: Size −4 on a weighted child of a width-10 parent raises the
distributable pool from 10 to 14. -/
theorem claim_C9_witness :
    (leafBox ("n") (-4) 2).Size < 0
    ∧ (leafBox ("n") (-4) 2).isStatic = false
    ∧ remainingSizeOf 10 (leafBox ("n") (-4) 2 :: [leafBox ("w") 0 1])
        = remainingSizeOf (10 - (leafBox ("n") (-4) 2).Size) [leafBox ("w") 0 1] :=
  ⟨by decide,
   (claim_C9 (leafBox ("n") (-4) 2) [leafBox ("w") 0 1] 10 (by decide)).1,
   (claim_C9 (leafBox ("n") (-4) 2) [leafBox ("w") 0 1] 10 (by decide)).2.2.1⟩

/-- C10 counterexample: with one weighted child of Weight 2^53+2 and
availableSize 2^53+1 (representable in a 64-bit Go int), the algorithm
reaches `extraSize = 2^53+1`; `float64(2^53+1)` rounds to `2^53` (ties to
even), so the float-computed draw is `2^53`, one less than the exact
integer minimum `2^53+1`. -/
theorem claim_C10_cex :
    extraSizeOf (2 ^ 53 + 1) hugeWeightChildren = 2 ^ 53 + 1
    ∧ totalWeightOf hugeWeightChildren = 2 ^ 53 + 2
    ∧ goFloat64Min (2 ^ 53 + 1) (2 ^ 53 + 2) = 2 ^ 53
    ∧ goFloat64Min (2 ^ 53 + 1) (2 ^ 53 + 2) ≠ min (2 ^ 53 + 1) (2 ^ 53 + 2) := by
  have h1 : goFloat64Min (2 ^ 53 + 1) (2 ^ 53 + 2) = 2 ^ 53 := by decide
  have h2 : min (2 ^ 53 + 1 : Int) (2 ^ 53 + 2) = 2 ^ 53 + 1 :=
    min_eq_left (by norm_num)
  refine ⟨by decide, by decide, h1, ?_⟩
  rw [h1, h2]
  norm_num

/-- C10 (amended): the float64 round-trip draw
`int(math.Min(float64(extraSize), float64(weight)))` equals the exact
integer minimum whenever both operands are non-negative and at most 2^53
(the range in which binary64 represents integers exactly); beyond that the
rounding can lose units. -/
theorem claim_C10 (a b : Int) (ha0 : 0 ≤ a) (ha : a ≤ 2 ^ 53)
    (hb0 : 0 ≤ b) (hb : b ≤ 2 ^ 53) :
    goFloat64Min a b = min a b :=
  goFloat64Min_eq_min ha0 ha hb0 hb

/-- C10 witness: exactness at a small concrete pair. -/
theorem claim_C10_witness : goFloat64Min 5 3 = min 5 3 :=
  claim_C10 5 3 (by norm_num) (by norm_num) (by norm_num) (by norm_num)

/-- C4 counterexample: with an oversized static child (Size 50 in available
30), remainingSize is clamped to 0, but a weighted sibling of negative
Weight receives extent −1, not 0: the claim's "weighted siblings receive
extent 0" fails for negative weights. -/
theorem claim_C4_cex :
    (leafBox ("b") 0 (-1)).isStatic = false
    ∧ (30 : Int) ≤ reservedSizeOf overSizeCexChildren
    ∧ boxSizesGo (unitSizeOf 30 overSizeCexChildren) overSizeCexChildren
        (extraSizeOf 30 overSizeCexChildren) = [50, -1]
    ∧ boxSizesGo (unitSizeOf 30 overSizeCexChildren) overSizeCexChildren
        (extraSizeOf 30 overSizeCexChildren) ≠ [50, 0] := by
  refine ⟨by decide, by decide, by decide, by decide⟩

/-- C4 (amended): a static child's extent is always its Size field verbatim,
even when the static sizes exceed availableSize (scenario 5: Size 50 in
available 30 still yields a rectangle of width 50, extending beyond the
bounds); the only defensive clamp is remainingSize to 0 — so unitSize and
extraSize become 0 and every weighted sibling of non-negative Weight
receives extent 0. -/
theorem claim_C4 :
    (∀ (u e : Int) (c : Box), c.isStatic → childBoxSize u e c = c.Size)
    ∧ (∀ (availableSize : Int) (cs : List Box),
        availableSize ≤ reservedSizeOf cs →
          remainingSizeOf availableSize cs = 0
          ∧ unitSizeOf availableSize cs = 0
          ∧ extraSizeOf availableSize cs = 0)
    ∧ (∀ (availableSize : Int) (cs : List Box) (c : Box),
        availableSize ≤ reservedSizeOf cs → ¬ c.isStatic → 0 ≤ c.Weight →
          childBoxSize (unitSizeOf availableSize cs) (extraSizeOf availableSize cs) c = 0)
    ∧ ArrangeViews scen5Root 0 0 30 5
        = [(("v"), { X0 := 0, Y0 := 0, X1 := 49, Y1 := 4 })] := by
  have hzero : ∀ (availableSize : Int) (cs : List Box),
      availableSize ≤ reservedSizeOf cs →
        remainingSizeOf availableSize cs = 0
        ∧ unitSizeOf availableSize cs = 0
        ∧ extraSizeOf availableSize cs = 0 := by
    intro availableSize cs hge
    have hrem : remainingSizeOf availableSize cs = 0 := remainingSizeOf_of_ge hge
    refine ⟨hrem, ?_, ?_⟩
    · simp only [unitSizeOf, hrem]
      split
      · exact Int.zero_tdiv _
      · rfl
    · simp only [extraSizeOf, hrem]
      split
      · exact Int.zero_tmod _
      · rfl
  refine ⟨fun u e c h => childBoxSize_static h, hzero, ?_, ?_⟩
  · intro availableSize cs c hge hstat hw
    rw [(hzero availableSize cs hge).2.1, (hzero availableSize cs hge).2.2]
    simp only [childBoxSize, hstat, if_false]
    rw [goFloat64Min_zero_left_of_nonneg hw]
    ring_nf
    simp [hstat]
  · exact @ArrangeViews_ofFuel 2 scen5Root 0 0 30 5
      [(("v"), { X0 := 0, Y0 := 0, X1 := 49, Y1 := 4 })] (by decide)

/-- C4 witness: the zero-extent consequence at a concrete convention
input: one static child of Size 7 in available 5, one weighted sibling. -/
theorem claim_C4_witness :
    (5 : Int) ≤ reservedSizeOf [leafBox ("s") 7 0, leafBox ("w") 0 2]
    ∧ (leafBox ("w") 0 2).isStatic = false
    ∧ childBoxSize (unitSizeOf 5 [leafBox ("s") 7 0, leafBox ("w") 0 2])
        (extraSizeOf 5 [leafBox ("s") 7 0, leafBox ("w") 0 2]) (leafBox ("w") 0 2) = 0 :=
  ⟨by decide, by decide,
   claim_C4.2.2.1 5 [leafBox ("s") 7 0, leafBox ("w") 0 2] (leafBox ("w") 0 2)
     (by decide) (by decide) (by decide)⟩

/-- C8: `ArrangeViews` is total: for every finite box tree and every
allocation (including degenerate ones) some finite fuel reproduces its
value, i.e. the recursion terminates and returns a mapping; and when
totalWeight is 0 the weighted pool is empty (unitSize and extraSize are 0),
so a weighted child of non-negative Weight receives extent 0 — leftover
space is assigned to no weighted child (a negative Weight yields a
non-positive extent, never a share of the leftover). -/
theorem claim_C8 :
    (∀ (b : Box) (x0 y0 width height : Int),
      ∃ n, arrangeViewsFuel n b x0 y0 width height
        = some (ArrangeViews b x0 y0 width height))
    ∧ (∀ (availableSize : Int) (cs : List Box) (c : Box),
        totalWeightOf cs = 0 → ¬ c.isStatic →
          childBoxSize (unitSizeOf availableSize cs) (extraSizeOf availableSize cs) c ≤ 0
          ∧ (0 ≤ c.Weight →
            childBoxSize (unitSizeOf availableSize cs) (extraSizeOf availableSize cs) c
              = 0)) := by
  constructor
  · intro b x0 y0 width height
    obtain ⟨n, r, hn⟩ := ArrangeViews_total b x0 y0 width height
    exact ⟨n, by rw [ArrangeViews_ofFuel hn]; exact hn⟩
  · intro availableSize cs c hW hstat
    have hW' : ¬ 0 < totalWeightOf cs := by omega
    rw [unitSizeOf_of_nonpos hW', extraSizeOf_of_nonpos hW']
    simp only [childBoxSize, hstat, if_false]
    constructor
    · have := goFloat64Min_zero_left_nonpos c.Weight
      have hmul : (0 : Int) * c.Weight = 0 := by ring
      simp [hstat]
      omega
    · intro hw
      rw [goFloat64Min_zero_left_of_nonneg hw]
      ring_nf
      simp [hstat]

/-- C8 witness: a concrete zero-total-weight family where the weighted child
receives extent 0, and a concrete tree whose layout the fuel-bounded runner
reproduces. -/
theorem claim_C8_witness :
    totalWeightOf zeroWeightChildren = 0
    ∧ childBoxSize (unitSizeOf 9 zeroWeightChildren) (extraSizeOf 9 zeroWeightChildren)
        (leafBox ("z") 0 0) = 0 :=
  ⟨by decide,
   (claim_C8.2 9 zeroWeightChildren (leafBox ("z") 0 0) (by decide) (by decide)).2
     (by decide)⟩

theorem boxSizesGo_length (u : Int) : ∀ (cs : List Box) (e : Int),
    (boxSizesGo u cs e).length = cs.length := by
  intro cs
  induction cs with
  | nil => intro e; rfl
  | cons c rest ih =>
    intro e
    simp only [boxSizesGo, List.length_cons, ih]

theorem boxSizesGo_entry_le {u : Int} : ∀ (cs : List Box) (e : Int) (k : Nat)
    (hk : k < cs.length)
    (hw : ∀ c ∈ cs, 0 ≤ c.Weight ∧ c.Weight ≤ 2 ^ 53)
    (he0 : 0 ≤ e) (he53 : e ≤ 2 ^ 53),
    (cs.get ⟨k, hk⟩).isStatic = false →
    (boxSizesGo u cs e).get ⟨k, by rw [boxSizesGo_length]; exact hk⟩
      ≤ u * (cs.get ⟨k, hk⟩).Weight + min e ((cs.get ⟨k, hk⟩).Weight) := by
  intro cs
  induction cs with
  | nil =>
    intro e k hk
    exact absurd hk (by simp)
  | cons c rest ih =>
    intro e k hk hw he0 he53 hstat
    have hc := hw c (List.mem_cons_self c rest)
    have hrest : ∀ d ∈ rest, 0 ≤ d.Weight ∧ d.Weight ≤ 2 ^ 53 :=
      fun d hd => hw d (List.mem_cons_of_mem c hd)
    have he0' : 0 ≤ nextExtra e c := by
      by_cases hs : c.isStatic
      · rw [nextExtra_static hs]; exact he0
      · exact nextExtra_nonneg he0 he53 hc.1 hc.2
    have hele : nextExtra e c ≤ e := by
      by_cases hs : c.isStatic
      · rw [nextExtra_static hs]
      · exact nextExtra_le he0 he53 hc.1 hc.2
    have he53' : nextExtra e c ≤ 2 ^ 53 := le_trans hele he53
    cases k with
    | zero =>
      have hstat0 : ¬ c.isStatic := by
        simpa using hstat
      have hthis : (boxSizesGo u (c :: rest) e).get ⟨0, by rw [boxSizesGo_length]; simp⟩
          = childBoxSize u e c := rfl
      have hgetc0 : (c :: rest).get ⟨0, hk⟩ = c := rfl
      rw [hthis, childBoxSize_weighted hstat0 he0 he53 hc.1 hc.2, hgetc0]
    | succ k =>
      have hk' : k < rest.length := by simpa using hk
      have hget : (boxSizesGo u (c :: rest) e).get
            ⟨k + 1, by rw [boxSizesGo_length]; simpa using hk⟩
          = (boxSizesGo u rest (nextExtra e c)).get
            ⟨k, by rw [boxSizesGo_length]; exact hk'⟩ := rfl
      have hgetc : (c :: rest).get ⟨k + 1, hk⟩ = rest.get ⟨k, hk'⟩ := rfl
      rw [hget, hgetc]
      rw [hgetc] at hstat
      have hih := ih (nextExtra e c) k hk' hrest he0' he53' hstat
      refine le_trans hih ?_
      have hmin : min (nextExtra e c) ((rest.get ⟨k, hk'⟩).Weight)
          ≤ min e ((rest.get ⟨k, hk'⟩).Weight) := min_le_min hele le_rfl
      omega

theorem boxSizesGo_order {u : Int} : ∀ (cs : List Box) (e : Int) (i j : Nat)
    (hi : i < cs.length) (hj : j < cs.length), i < j →
    (∀ c ∈ cs, 0 ≤ c.Weight ∧ c.Weight ≤ 2 ^ 53) → 0 ≤ e → e ≤ 2 ^ 53 →
    (cs.get ⟨i, hi⟩).isStatic = false →
    (cs.get ⟨j, hj⟩).isStatic = false →
    (cs.get ⟨i, hi⟩).Weight = (cs.get ⟨j, hj⟩).Weight →
    (boxSizesGo u cs e).get ⟨j, by rw [boxSizesGo_length]; exact hj⟩
      ≤ (boxSizesGo u cs e).get ⟨i, by rw [boxSizesGo_length]; exact hi⟩ := by
  intro cs
  induction cs with
  | nil =>
    intro e i j hi
    exact absurd hi (by simp)
  | cons c rest ih =>
    intro e i j hi hj hij hw he0 he53 hstati hstatj heq
    have hc := hw c (List.mem_cons_self c rest)
    have hrest : ∀ d ∈ rest, 0 ≤ d.Weight ∧ d.Weight ≤ 2 ^ 53 :=
      fun d hd => hw d (List.mem_cons_of_mem c hd)
    have he0' : 0 ≤ nextExtra e c := by
      by_cases hs : c.isStatic
      · rw [nextExtra_static hs]; exact he0
      · exact nextExtra_nonneg he0 he53 hc.1 hc.2
    have hele : nextExtra e c ≤ e := by
      by_cases hs : c.isStatic
      · rw [nextExtra_static hs]
      · exact nextExtra_le he0 he53 hc.1 hc.2
    have he53' : nextExtra e c ≤ 2 ^ 53 := le_trans hele he53
    cases i with
    | zero =>
      cases j with
      | zero => omega
      | succ j =>
        have hj' : j < rest.length := by simpa using hj
        have hstat0 : ¬ c.isStatic := by simpa using hstati
        have hgetj : (c :: rest).get ⟨j + 1, hj⟩ = rest.get ⟨j, hj'⟩ := rfl
        rw [hgetj] at hstatj heq
        have hA := boxSizesGo_entry_le (u := u) rest (nextExtra e c) j hj'
          hrest he0' he53' hstatj
        have hgetsj : (boxSizesGo u (c :: rest) e).get
              ⟨j + 1, by rw [boxSizesGo_length]; simpa using hj⟩
            = (boxSizesGo u rest (nextExtra e c)).get
              ⟨j, by rw [boxSizesGo_length]; exact hj'⟩ := rfl
        have hgets0 : (boxSizesGo u (c :: rest) e).get
              ⟨0, by rw [boxSizesGo_length]; simp⟩
            = childBoxSize u e c := rfl
        rw [hgetsj, hgets0, childBoxSize_weighted hstat0 he0 he53 hc.1 hc.2]
        have hgetc0 : (c :: rest).get ⟨0, hi⟩ = c := rfl
        rw [hgetc0] at heq
        rw [← heq] at hA
        have hmin : min (nextExtra e c) c.Weight ≤ min e c.Weight :=
          min_le_min hele le_rfl
        omega
    | succ i =>
      cases j with
      | zero => omega
      | succ j =>
        have hi' : i < rest.length := by simpa using hi
        have hj' : j < rest.length := by simpa using hj
        have hgeti : (c :: rest).get ⟨i + 1, hi⟩ = rest.get ⟨i, hi'⟩ := rfl
        have hgetj : (c :: rest).get ⟨j + 1, hj⟩ = rest.get ⟨j, hj'⟩ := rfl
        rw [hgeti] at hstati heq
        rw [hgetj] at hstatj heq
        have hgetsi : (boxSizesGo u (c :: rest) e).get
              ⟨i + 1, by rw [boxSizesGo_length]; simpa using hi⟩
            = (boxSizesGo u rest (nextExtra e c)).get
              ⟨i, by rw [boxSizesGo_length]; exact hi'⟩ := rfl
        have hgetsj : (boxSizesGo u (c :: rest) e).get
              ⟨j + 1, by rw [boxSizesGo_length]; simpa using hj⟩
            = (boxSizesGo u rest (nextExtra e c)).get
              ⟨j, by rw [boxSizesGo_length]; exact hj'⟩ := rfl
        rw [hgetsi, hgetsj]
        exact ih (nextExtra e c) i j hi' hj' (by omega) hrest he0' he53' hstati hstatj heq

/-- C2 counterexample: with weights [1, −5, 1, 10] in available size 7
(remainder 0, which is less than the number of weighted children, 4), the
negative-weight child refills the pool (drawing min(0,−5) = −5), so the
LATER weight-1 child receives an extra unit (extent 2) that the EARLIER
equal-weight child did not (extent 1): the distribution is not
order-stable for arbitrary integer weights. -/
theorem claim_C2_cex :
    extraSizeOf 7 negWeightCexChildren = 0
    ∧ totalWeightOf negWeightCexChildren = 7
    ∧ (negWeightCexChildren.filter fun c => !c.isStatic).length = 4
    ∧ (leafBox ("a") 0 1).Weight = (leafBox ("c") 0 1).Weight
    ∧ boxSizesGo (unitSizeOf 7 negWeightCexChildren) negWeightCexChildren
        (extraSizeOf 7 negWeightCexChildren) = [1, -10, 2, 14]
    ∧ (boxSizesGo (unitSizeOf 7 negWeightCexChildren) negWeightCexChildren
        (extraSizeOf 7 negWeightCexChildren)).getD 0 0
      < (boxSizesGo (unitSizeOf 7 negWeightCexChildren) negWeightCexChildren
          (extraSizeOf 7 negWeightCexChildren)).getD 2 0 := by
  refine ⟨by decide, by decide, by decide, by decide, by decide, by decide⟩

/-- C2 (amended): for non-negative weights at most 2^53 and a non-negative
pool at most 2^53, a weighted child's extent is
`unitSize*weight + min(extraSize, weight)` with the drawn amount subtracted
from the pool before later siblings (the float64 min being exact in this
range), and the distribution is order-stable: among weighted children of
equal weight, a later child never receives a larger extent than an earlier
one; three weight-1 children in width 10 receive extents 4, 3, 3
(first child absorbs the remainder), covering offsets 0–3, 4–6, 7–9. -/
theorem claim_C2 :
    (∀ (u e : Int) (c : Box) (cs : List Box), ¬ c.isStatic →
      0 ≤ e → e ≤ 2 ^ 53 → 0 ≤ c.Weight → c.Weight ≤ 2 ^ 53 →
      boxSizesGo u (c :: cs) e
        = (u * c.Weight + min e c.Weight) :: boxSizesGo u cs (e - min e c.Weight))
    ∧ (∀ (u : Int) (cs : List Box) (e : Int) (i j : Nat)
        (hi : i < cs.length) (hj : j < cs.length), i < j →
        (∀ c ∈ cs, 0 ≤ c.Weight ∧ c.Weight ≤ 2 ^ 53) → 0 ≤ e → e ≤ 2 ^ 53 →
        (cs.get ⟨i, hi⟩).isStatic = false →
        (cs.get ⟨j, hj⟩).isStatic = false →
        (cs.get ⟨i, hi⟩).Weight = (cs.get ⟨j, hj⟩).Weight →
        (boxSizesGo u cs e).get ⟨j, by rw [boxSizesGo_length]; exact hj⟩
          ≤ (boxSizesGo u cs e).get ⟨i, by rw [boxSizesGo_length]; exact hi⟩)
    ∧ ArrangeViews scen3Root 0 0 10 1
        = [(("a"), { X0 := 0, Y0 := 0, X1 := 3, Y1 := 0 }),
           (("b"), { X0 := 4, Y0 := 0, X1 := 6, Y1 := 0 }),
           (("c"), { X0 := 7, Y0 := 0, X1 := 9, Y1 := 0 })] := by
  refine ⟨?_, ?_, ?_⟩
  · intro u e c cs hstat he0 he53 hw0 hw53
    simp only [boxSizesGo]
    rw [childBoxSize_weighted hstat he0 he53 hw0 hw53,
      nextExtra_of_bounds he0 he53 hw0 hw53, if_neg hstat]
  · intro u cs e i j hi hj hij hw he0 he53 hstati hstatj heq
    exact boxSizesGo_order cs e i j hi hj hij hw he0 he53 hstati hstatj heq
  · exact @ArrangeViews_ofFuel 2 scen3Root 0 0 10 1
      [(("a"), { X0 := 0, Y0 := 0, X1 := 3, Y1 := 0 }),
       (("b"), { X0 := 4, Y0 := 0, X1 := 6, Y1 := 0 }),
       (("c"), { X0 := 7, Y0 := 0, X1 := 9, Y1 := 0 })] (by decide)

/-- C2 witness: the order-stability part at a concrete input — in scenario
3's children with pool 1 and unit 3, the second weight-1 child receives no
more than the first. -/
theorem claim_C2_witness :
    (boxSizesGo 3 [leafBox ("a") 0 1, leafBox ("b") 0 1, leafBox ("c") 0 1] 1).get
        ⟨1, by decide⟩
      ≤ (boxSizesGo 3 [leafBox ("a") 0 1, leafBox ("b") 0 1, leafBox ("c") 0 1] 1).get
        ⟨0, by decide⟩ :=
  claim_C2.2.1 3 [leafBox ("a") 0 1, leafBox ("b") 0 1, leafBox ("c") 0 1] 1 0 1
    (by decide) (by decide) (by decide) (by decide) (by decide) (by decide)
    (by decide) (by decide) (by decide)

theorem childFrames_length (dir x0 y0 w h u : Int) : ∀ (cs : List Box) (offset e : Int),
    (childFrames dir x0 y0 w h u cs offset e).length = cs.length := by
  intro cs
  induction cs with
  | nil => intro offset e; rfl
  | cons c rest ih =>
    intro offset e
    simp only [childFrames, List.length_cons, ih]

theorem arrangeChildren_eq_frames (root : Box) (dir x0 y0 w h u : Int) :
    ∀ (cs : List Box) (hcs : ∀ c ∈ cs, Box.IsChild c root) (result : DMap)
      (offset e : Int),
    arrangeChildren root dir x0 y0 w h u cs hcs result offset e
      = result ++
        ((childFrames dir x0 y0 w h u cs offset e).map
          (fun t => ArrangeViews t.1 t.2.1 t.2.2.1 t.2.2.2.1 t.2.2.2.2)).flatten := by
  intro cs
  induction cs with
  | nil =>
    intro hcs result offset e
    rw [arrangeChildren_nil]
    simp [childFrames]
  | cons c rest ih =>
    intro hcs result offset e
    rw [arrangeChildren_cons, ih]
    simp only [childFrames, List.map_cons, List.flatten_cons, mergeDimensionMaps]
    by_cases hdir : dir = COLUMN
    · simp only [if_pos hdir, List.append_assoc]
    · simp only [if_neg hdir, List.append_assoc]

theorem childFrames_get_column (x0 y0 w h u : Int) :
    ∀ (cs : List Box) (offset e : Int) (i : Nat) (hi : i < cs.length),
    (childFrames COLUMN x0 y0 w h u cs offset e).get
        ⟨i, by rw [childFrames_length]; exact hi⟩
      = (cs.get ⟨i, hi⟩,
         x0 + (offset + ((boxSizesGo u cs e).take i).sum),
         y0,
         (boxSizesGo u cs e).get ⟨i, by rw [boxSizesGo_length]; exact hi⟩,
         h) := by
  intro cs
  induction cs with
  | nil =>
    intro offset e i hi
    exact absurd hi (by simp)
  | cons c rest ih =>
    intro offset e i hi
    cases i with
    | zero =>
      have hhead : (childFrames COLUMN x0 y0 w h u (c :: rest) offset e).get
            ⟨0, by rw [childFrames_length]; simp⟩
          = (if COLUMN = COLUMN then (c, x0 + offset, y0, childBoxSize u e c, h)
             else (c, x0, y0 + offset, w, childBoxSize u e c)) := rfl
      rw [hhead, if_pos rfl]
      have htake : (((boxSizesGo u (c :: rest) e).take 0).sum : Int) = 0 := rfl
      have hget0 : (boxSizesGo u (c :: rest) e).get
            ⟨0, by rw [boxSizesGo_length]; simp⟩ = childBoxSize u e c := rfl
      have hgetc0 : (c :: rest).get ⟨0, hi⟩ = c := rfl
      rw [htake, hget0, hgetc0]
      norm_num
    | succ i =>
      have hi' : i < rest.length := by simpa using hi
      have htail : (childFrames COLUMN x0 y0 w h u (c :: rest) offset e).get
            ⟨i + 1, by rw [childFrames_length]; simpa using hi⟩
          = (childFrames COLUMN x0 y0 w h u rest (offset + childBoxSize u e c)
              (nextExtra e c)).get
            ⟨i, by rw [childFrames_length]; exact hi'⟩ := rfl
      have hgetc : (c :: rest).get ⟨i + 1, hi⟩ = rest.get ⟨i, hi'⟩ := rfl
      have hgets : (boxSizesGo u (c :: rest) e).get
            ⟨i + 1, by rw [boxSizesGo_length]; simpa using hi⟩
          = (boxSizesGo u rest (nextExtra e c)).get
            ⟨i, by rw [boxSizesGo_length]; exact hi'⟩ := rfl
      have htake : ((boxSizesGo u (c :: rest) e).take (i + 1)).sum
          = childBoxSize u e c + ((boxSizesGo u rest (nextExtra e c)).take i).sum := by
        simp [boxSizesGo]
      rw [htail, ih (offset + childBoxSize u e c) (nextExtra e c) i hi', hgetc, hgets,
        htake]
      have harith : x0 + (offset + childBoxSize u e c
            + ((boxSizesGo u rest (nextExtra e c)).take i).sum)
          = x0 + (offset + (childBoxSize u e c
            + ((boxSizesGo u rest (nextExtra e c)).take i).sum)) := by ring
      rw [harith]

theorem childFrames_get_row (x0 y0 w h u : Int) {dir : Int} (hdir : dir ≠ COLUMN) :
    ∀ (cs : List Box) (offset e : Int) (i : Nat) (hi : i < cs.length),
    (childFrames dir x0 y0 w h u cs offset e).get
        ⟨i, by rw [childFrames_length]; exact hi⟩
      = (cs.get ⟨i, hi⟩,
         x0,
         y0 + (offset + ((boxSizesGo u cs e).take i).sum),
         w,
         (boxSizesGo u cs e).get ⟨i, by rw [boxSizesGo_length]; exact hi⟩) := by
  intro cs
  induction cs with
  | nil =>
    intro offset e i hi
    exact absurd hi (by simp)
  | cons c rest ih =>
    intro offset e i hi
    cases i with
    | zero =>
      have hhead : (childFrames dir x0 y0 w h u (c :: rest) offset e).get
            ⟨0, by rw [childFrames_length]; simp⟩
          = (if dir = COLUMN then (c, x0 + offset, y0, childBoxSize u e c, h)
             else (c, x0, y0 + offset, w, childBoxSize u e c)) := rfl
      rw [hhead, if_neg hdir]
      have htake : (((boxSizesGo u (c :: rest) e).take 0).sum : Int) = 0 := rfl
      have hget0 : (boxSizesGo u (c :: rest) e).get
            ⟨0, by rw [boxSizesGo_length]; simp⟩ = childBoxSize u e c := rfl
      have hgetc0 : (c :: rest).get ⟨0, hi⟩ = c := rfl
      rw [htake, hget0, hgetc0]
      norm_num
    | succ i =>
      have hi' : i < rest.length := by simpa using hi
      have htail : (childFrames dir x0 y0 w h u (c :: rest) offset e).get
            ⟨i + 1, by rw [childFrames_length]; simpa using hi⟩
          = (childFrames dir x0 y0 w h u rest (offset + childBoxSize u e c)
              (nextExtra e c)).get
            ⟨i, by rw [childFrames_length]; exact hi'⟩ := rfl
      have hgetc : (c :: rest).get ⟨i + 1, hi⟩ = rest.get ⟨i, hi'⟩ := rfl
      have hgets : (boxSizesGo u (c :: rest) e).get
            ⟨i + 1, by rw [boxSizesGo_length]; simpa using hi⟩
          = (boxSizesGo u rest (nextExtra e c)).get
            ⟨i, by rw [boxSizesGo_length]; exact hi'⟩ := rfl
      have htake : ((boxSizesGo u (c :: rest) e).take (i + 1)).sum
          = childBoxSize u e c + ((boxSizesGo u rest (nextExtra e c)).take i).sum := by
        simp [boxSizesGo]
      rw [htail, ih (offset + childBoxSize u e c) (nextExtra e c) i hi', hgetc, hgets,
        htake]
      have harith : y0 + (offset + childBoxSize u e c
            + ((boxSizesGo u rest (nextExtra e c)).take i).sum)
          = y0 + (offset + (childBoxSize u e c
            + ((boxSizesGo u rest (nextExtra e c)).take i).sum)) := by ring
      rw [harith]

/-- C6: the second pass recurses into child i with only the partitioned
dimension and the origin coordinate along the partitioned axis changed:
the loop result is the merge of the recursive calls at the frames listed by
`childFrames`, and the i-th frame has, for COLUMN, origin
(x0 + offset + sum of the first i extents, y0), the i-th computed extent as
width and the parent's height unchanged; for any non-COLUMN direction
(ROW), origin (x0, y0 + offset + sum of first i extents), the parent's
width unchanged and the i-th computed extent as height. -/
theorem claim_C6 :
    (∀ (root : Box) (dir x0 y0 w h u : Int) (cs : List Box)
      (hcs : ∀ c ∈ cs, Box.IsChild c root) (result : DMap) (offset e : Int),
      arrangeChildren root dir x0 y0 w h u cs hcs result offset e
        = result ++
          ((childFrames dir x0 y0 w h u cs offset e).map
            (fun t => ArrangeViews t.1 t.2.1 t.2.2.1 t.2.2.2.1 t.2.2.2.2)).flatten)
    ∧ (∀ (x0 y0 w h u : Int) (cs : List Box) (offset e : Int) (i : Nat)
        (hi : i < cs.length),
      (childFrames COLUMN x0 y0 w h u cs offset e).get
          ⟨i, by rw [childFrames_length]; exact hi⟩
        = (cs.get ⟨i, hi⟩,
           x0 + (offset + ((boxSizesGo u cs e).take i).sum),
           y0,
           (boxSizesGo u cs e).get ⟨i, by rw [boxSizesGo_length]; exact hi⟩,
           h))
    ∧ (∀ (x0 y0 w h u dir : Int), dir ≠ COLUMN →
        ∀ (cs : List Box) (offset e : Int) (i : Nat) (hi : i < cs.length),
      (childFrames dir x0 y0 w h u cs offset e).get
          ⟨i, by rw [childFrames_length]; exact hi⟩
        = (cs.get ⟨i, hi⟩,
           x0,
           y0 + (offset + ((boxSizesGo u cs e).take i).sum),
           w,
           (boxSizesGo u cs e).get ⟨i, by rw [boxSizesGo_length]; exact hi⟩)) := by
  refine ⟨?_, ?_, ?_⟩
  · intro root dir x0 y0 w h u cs hcs result offset e
    exact arrangeChildren_eq_frames root dir x0 y0 w h u cs hcs result offset e
  · intro x0 y0 w h u cs offset e i hi
    exact childFrames_get_column x0 y0 w h u cs offset e i hi
  · intro x0 y0 w h u dir hdir cs offset e i hi
    exact childFrames_get_row x0 y0 w h u hdir cs offset e i hi

/-- C6 witness: the second frame of a concrete COLUMN run sits at the
origin advanced by exactly the first child's extent. -/
theorem claim_C6_witness :
    (childFrames COLUMN 0 0 10 1 3 [leafBox ("a") 0 1, leafBox ("b") 0 1] 0 1).get
        ⟨1, by decide⟩
      = ([leafBox ("a") 0 1, leafBox ("b") 0 1].get ⟨1, by decide⟩,
         0 + (0 + ((boxSizesGo 3 [leafBox ("a") 0 1, leafBox ("b") 0 1] 1).take 1).sum),
         0,
         (boxSizesGo 3 [leafBox ("a") 0 1, leafBox ("b") 0 1] 1).get ⟨1, by decide⟩,
         1) :=
  claim_C6.2.1 0 0 10 1 3 [leafBox ("a") 0 1, leafBox ("b") 0 1] 0 1 1 (by decide)

theorem dmLookup_merge (a b : DMap) (k : String) :
    dmLookup (mergeDimensionMaps a b) k
      = match dmLookup b k with
        | some v => some v
        | none => dmLookup a k := by
  induction a with
  | nil =>
    simp only [mergeDimensionMaps, List.nil_append]
    cases hb : dmLookup b k <;> simp [dmLookup]
  | cons p a' ih =>
    obtain ⟨k0, v0⟩ := p
    simp only [mergeDimensionMaps, List.cons_append] at *
    rw [dmLookup, ih]
    cases hb : dmLookup b k with
    | some v => rfl
    | none => rfl

theorem leafMapsLoop_eq {n : Nat}
    (hn : ∀ (c : Box) (a b ww hh : Int),
      arrangeViewsFuel n c a b ww hh
        = (leafMapsFuel n c a b ww hh).map (fun ls => ls.flatten))
    (dir x0 y0 w h u : Int) :
    ∀ (cs : List Box) (result : DMap) (offset e : Int),
    arrangeChildrenWith (fun c a b ww hh => arrangeViewsFuel n c a b ww hh)
        dir x0 y0 w h u cs result offset e
      = (leafMapsLoop (fun c a b ww hh => leafMapsFuel n c a b ww hh)
          dir x0 y0 w h u cs offset e).map (fun ls => result ++ ls.flatten) := by
  intro cs
  induction cs with
  | nil =>
    intro result offset e
    simp [arrangeChildrenWith, leafMapsLoop]
  | cons c rest ih =>
    intro result offset e
    simp only [arrangeChildrenWith, leafMapsLoop]
    have hif : (if dir = COLUMN then
          arrangeViewsFuel n c (x0 + offset) y0 (childBoxSize u e c) h
        else arrangeViewsFuel n c x0 (y0 + offset) w (childBoxSize u e c))
        = (if dir = COLUMN then
            leafMapsFuel n c (x0 + offset) y0 (childBoxSize u e c) h
          else leafMapsFuel n c x0 (y0 + offset) w (childBoxSize u e c)).map
            (fun ls => ls.flatten) := by
      by_cases hdir : dir = COLUMN
      · rw [if_pos hdir, if_pos hdir, hn]
      · rw [if_neg hdir, if_neg hdir, hn]
    rw [hif]
    cases hl : (if dir = COLUMN then
        leafMapsFuel n c (x0 + offset) y0 (childBoxSize u e c) h
      else leafMapsFuel n c x0 (y0 + offset) w (childBoxSize u e c)) with
    | none => rfl
    | some l =>
      simp only [Option.map]
      rw [ih (mergeDimensionMaps result l.flatten) (offset + childBoxSize u e c)
        (nextExtra e c)]
      cases hrest : leafMapsLoop (fun c a b ww hh => leafMapsFuel n c a b ww hh)
          dir x0 y0 w h u rest (offset + childBoxSize u e c) (nextExtra e c) with
      | none => rfl
      | some ls =>
        simp only [Option.map, Option.some.injEq, mergeDimensionMaps]
        rw [List.flatten_append, List.append_assoc]

theorem arrangeViewsFuel_eq_leafMaps :
    ∀ (n : Nat) (b : Box) (x0 y0 w h : Int),
    arrangeViewsFuel n b x0 y0 w h
      = (leafMapsFuel n b x0 y0 w h).map (fun ls => ls.flatten) := by
  intro n
  induction n with
  | zero =>
    intro b x0 y0 w h
    rfl
  | succ n ih =>
    intro b x0 y0 w h
    simp only [arrangeViewsFuel, leafMapsFuel]
    by_cases hch : (b.getChildren w h).length = 0
    · rw [if_pos hch, if_pos hch]
      by_cases hvn : b.ViewName ≠ ""
      · rw [if_pos hvn, if_pos hvn]
        simp
      · rw [if_neg hvn, if_neg hvn]
        simp
    · rw [if_neg hch, if_neg hch]
      rw [leafMapsLoop_eq (fun c a b' ww hh => ih c a b' ww hh)]
      rcases hl : leafMapsLoop (fun c a b' ww hh => leafMapsFuel n c a b' ww hh)
          (b.getDirection w h) x0 y0 w h
          (unitSizeOf (availableSizeOf (b.getDirection w h) w h) (b.getChildren w h))
          (b.getChildren w h) 0
          (extraSizeOf (availableSizeOf (b.getDirection w h) w h) (b.getChildren w h))
        with _ | ls
      · rfl
      · simp

/-- C7: merging children's mappings is a union in which a later entry for a
duplicate key overwrites an earlier one (the merged map looks a key up in
the later operand first); and the final mapping of a layout call equals the
one flat union of all leaf mappings in traversal order — so depth-first
incremental merging and one final union agree (here stated under the
claim's hypothesis that view identifiers are unique in the result). -/
theorem claim_C7 :
    (∀ (a b : DMap) (k : String),
      dmLookup (mergeDimensionMaps a b) k
        = match dmLookup b k with
          | some v => some v
          | none => dmLookup a k)
    ∧ (∀ (b : Box) (x0 y0 width height : Int) (n : Nat) (ls : List DMap),
        ((ArrangeViews b x0 y0 width height).map Prod.fst).Nodup →
        leafMapsFuel n b x0 y0 width height = some ls →
        ArrangeViews b x0 y0 width height = ls.flatten) := by
  refine ⟨dmLookup_merge, ?_⟩
  intro b x0 y0 width height n ls hnodup hls
  have hfuel : arrangeViewsFuel n b x0 y0 width height = some ls.flatten := by
    rw [arrangeViewsFuel_eq_leafMaps, hls]
    rfl
  exact ArrangeViews_ofFuel hfuel

/-- C7 witness: scenario 3's tree — the leaf mappings collected without
intermediate merging flatten to exactly the final mapping. -/
theorem claim_C7_witness :
    leafMapsFuel 2 scen3Root 0 0 10 1
      = some [[(("a"), { X0 := 0, Y0 := 0, X1 := 3, Y1 := 0 })],
              [(("b"), { X0 := 4, Y0 := 0, X1 := 6, Y1 := 0 })],
              [(("c"), { X0 := 7, Y0 := 0, X1 := 9, Y1 := 0 })]]
    ∧ ArrangeViews scen3Root 0 0 10 1
      = [[(("a"), { X0 := 0, Y0 := 0, X1 := 3, Y1 := 0 })],
         [(("b"), { X0 := 4, Y0 := 0, X1 := 6, Y1 := 0 })],
         [(("c"), { X0 := 7, Y0 := 0, X1 := 9, Y1 := 0 })]].flatten := by
  have hls : leafMapsFuel 2 scen3Root 0 0 10 1
      = some [[(("a"), { X0 := 0, Y0 := 0, X1 := 3, Y1 := 0 })],
              [(("b"), { X0 := 4, Y0 := 0, X1 := 6, Y1 := 0 })],
              [(("c"), { X0 := 7, Y0 := 0, X1 := 9, Y1 := 0 })]] := by decide
  have hnodup : ((ArrangeViews scen3Root 0 0 10 1).map Prod.fst).Nodup := by
    rw [@ArrangeViews_ofFuel 2 scen3Root 0 0 10 1
      [(("a"), { X0 := 0, Y0 := 0, X1 := 3, Y1 := 0 }),
       (("b"), { X0 := 4, Y0 := 0, X1 := 6, Y1 := 0 }),
       (("c"), { X0 := 7, Y0 := 0, X1 := 9, Y1 := 0 })] (by decide)]
    decide
  exact ⟨hls, claim_C7.2 scen3Root 0 0 10 1 2 _ hnodup hls⟩
